import Mathlib

/-!
Verification of the kernel test-fixture utilities in `tests/kernels/utils.py`:
the paged-layout allocator (`make_block_tables_slot_mapping`,
`num_tokens_to_min_blocks`), the packing codec (`pack_tensor`), the padded
Q/K/V builder (`make_qkv`) and the length-check prelude of
`ref_masked_attention`.

Modelling conventions:
* Python integers are `Nat` for counts / indices and `Int` for block
  addresses and slot values (the block base address is an arbitrary integer
  parameter in the source, default 0).
* Tensors only matter through their element values and allocated shapes;
  a padded buffer is a function `Nat → Nat → Int` (batch index, position)
  together with explicitly recorded allocation widths where a claim is
  about shape.  Head dimensions are untouched by every operation studied,
  so they are not modelled.
* Python exceptions (`ValueError` from `max([])`, `TypeError` from
  `len(None)`, `AssertionError`) are modelled with `Except String`.
-/

namespace VllmTestUtils

/-- `num_tokens_to_min_blocks` from `tests/kernels/utils.py`:
`(num_tokens + block_size) // block_size`. -/
def num_tokens_to_min_blocks (num_tokens block_size : Nat) : Nat :=
  (num_tokens + block_size) / block_size

/-- Python `max` over a list: raises `ValueError` on the empty list. -/
def pymax : List Nat → Except String Nat
  | [] => Except.error "ValueError: max arg is an empty sequence"
  | x :: xs => Except.ok (xs.foldl Nat.max x)

/-- `list(range(block_base_idx, block_base_idx - num_blocks, -1))`:
the `num_blocks` consecutive descending addresses starting at
`block_base_idx`. -/
def seq_block_table (block_base_idx : Int) (num_blocks : Nat) : List Int :=
  (List.range num_blocks).map (fun i : Nat => block_base_idx - (i : Int))

/-- The slot-mapping value of token `idx`:
`(idx % block_size) + block_table[idx // block_size] * block_size`. -/
def slot_value (block_size : Nat) (block_table : List Int) (idx : Nat) : Int :=
  ((idx % block_size : Nat) : Int) +
    block_table.getD (idx / block_size) 0 * (block_size : Int)

/-- The slot-mapping entries contributed by one sequence of `num_tokens`
tokens (the unconditional `slot_mapping.append` branch of the loop). -/
def seq_slot_mapping (block_size : Nat) (block_table : List Int)
    (num_tokens : Nat) : List Int :=
  (List.range num_tokens).map (slot_value block_size block_table)

/-- The prefill entries contributed by one sequence: the tokens with
`idx < num_tokens - 1`. -/
def seq_prefill_slots (block_size : Nat) (block_table : List Int)
    (num_tokens : Nat) : List Int :=
  ((List.range num_tokens).filter (fun idx => decide (idx < num_tokens - 1))).map
    (slot_value block_size block_table)

/-- The decode entries contributed by one sequence: the tokens with
`¬(idx < num_tokens - 1)` and `idx = num_tokens - 1` (the `elif` branch). -/
def seq_decode_slots (block_size : Nat) (block_table : List Int)
    (num_tokens : Nat) : List Int :=
  ((List.range num_tokens).filter
      (fun idx => !decide (idx < num_tokens - 1) && decide (idx = num_tokens - 1))).map
    (slot_value block_size block_table)

/-- Loop state of the main `for sdx, num_tokens in enumerate(seq_lens)` loop
of `make_block_tables_slot_mapping`. -/
structure BTSMState where
  block_base_idx : Int
  block_tables : List (List Int)
  prefill_slot_mapping : List Int
  decode_slot_mapping : List Int
  slot_mapping : List Int
deriving Repr, DecidableEq

/-- One iteration of the loop body for a sequence of `num_tokens` tokens. -/
def btsm_step (block_size : Nat) (st : BTSMState) (num_tokens : Nat) :
    BTSMState :=
  let num_blocks := num_tokens_to_min_blocks num_tokens block_size
  let block_table := seq_block_table st.block_base_idx num_blocks
  ⟨st.block_base_idx - num_blocks,
   st.block_tables ++ [block_table],
   st.prefill_slot_mapping ++ seq_prefill_slots block_size block_table num_tokens,
   st.decode_slot_mapping ++ seq_decode_slots block_size block_table num_tokens,
   st.slot_mapping ++ seq_slot_mapping block_size block_table num_tokens⟩

/-- The value-level outputs of `make_block_tables_slot_mapping`: the
per-sequence (unpadded) block tables, the zero-padded block-table rows that
back `decode_block_tables_tensor`, the three slot mappings and
`max_block_idx`.  Tensor/device conversion is representation only and is
not modelled. -/
structure BTSMResult where
  block_tables : List (List Int)
  decode_block_tables_padded : List (List Int)
  prefill_slot_mapping : List Int
  decode_slot_mapping : List Int
  slot_mapping : List Int
  max_block_idx : Int
deriving Repr, DecidableEq

/-- `make_block_tables_slot_mapping` from `tests/kernels/utils.py`.  The
`max(num_blocks_list)` call raises `ValueError` when `seq_lens` is empty,
which the `Except` models. -/
def make_block_tables_slot_mapping (block_size : Nat) (seq_lens : List Nat)
    (block_base_addr : Int) : Except String BTSMResult :=
  let num_blocks_list := seq_lens.map
    (fun num_tokens => num_tokens_to_min_blocks num_tokens block_size)
  match pymax num_blocks_list with
  | Except.error e => Except.error e
  | Except.ok max_block_table_len =>
    let block_table_pad_tokens := 10
    let total_cache_blocks := num_blocks_list.sum
    let block_base_idx : Int := block_base_addr + total_cache_blocks
    let max_block_idx := block_base_idx
    let final := seq_lens.foldl (btsm_step block_size)
      ⟨block_base_idx, [], [], [], []⟩
    Except.ok
      ⟨final.block_tables,
       final.block_tables.map
         (fun t =>
           t ++ List.replicate (max_block_table_len + block_table_pad_tokens - t.length) 0),
       final.prefill_slot_mapping,
       final.decode_slot_mapping,
       final.slot_mapping,
       max_block_idx⟩

/-- The result of `make_block_tables_slot_mapping(block_size=4,
seq_lens=[3, 5], block_base_addr=0)`, used as a concrete evaluation point. -/
def btsm_example_result : BTSMResult :=
  ⟨[[3], [2, 1]],
   [[3, 0, 0, 0, 0, 0, 0, 0, 0, 0, 0, 0], [2, 1, 0, 0, 0, 0, 0, 0, 0, 0, 0, 0]],
   [12, 13, 8, 9, 10, 11],
   [14, 4],
   [12, 13, 14, 8, 9, 10, 11, 4],
   3⟩

/-- The result of `make_block_tables_slot_mapping(block_size=4,
seq_lens=[0, 3], block_base_addr=0)`: a zero-token sequence is accepted and
contributes no slot-mapping entries. -/
def btsm_zero_token_result : BTSMResult :=
  ⟨[[2], [1]],
   [[2, 0, 0, 0, 0, 0, 0, 0, 0, 0, 0], [1, 0, 0, 0, 0, 0, 0, 0, 0, 0, 0]],
   [4, 5],
   [6],
   [4, 5, 6],
   2⟩

/-- The length-check prelude of `ref_masked_attention`
(`assert (len(q_seq_lens) == batch_size)` followed by
`assert (len(kv_seq_lens) == batch_size)`, executed unconditionally).
`none` models the Python default `None`, on which `len` raises `TypeError`;
a failed `assert` raises `AssertionError`. -/
def ref_masked_attention_len_check (batch_size : Nat)
    (q_seq_lens kv_seq_lens : Option (List Nat)) : Except String Unit :=
  match q_seq_lens with
  | none => Except.error "TypeError: object of type NoneType has no len"
  | some qs =>
    if qs.length = batch_size then
      match kv_seq_lens with
      | none => Except.error "TypeError: object of type NoneType has no len"
      | some ks =>
        if ks.length = batch_size then Except.ok ()
        else Except.error "AssertionError"
    else Except.error "AssertionError"

/-- One region assignment
`packed_tensor[start_loc:(start_loc + seq_len), :, :] = unpacked_tensor[bdx, :seq_len, :, :]`
of the `pack_tensor` loop, as a state update of the flat buffer. -/
def write_region (unpacked : Nat → Nat → Int) (bdx seq_len start_loc : Nat)
    (buf : Nat → Int) : Nat → Int :=
  fun j =>
    if start_loc ≤ j ∧ j < start_loc + seq_len then unpacked bdx (j - start_loc)
    else buf j

/-- The outputs of `pack_tensor`: the allocated first dimension of the
packed buffer (`torch.zeros((num_tok, ...))`), the packed buffer contents,
and `start_loc_list`. -/
structure PackResult where
  packed_len : Nat
  packed : Nat → Int
  start_loc_list : List Nat

/-- `pack_tensor` from `tests/kernels/utils.py`.
`start_loc_list = [0] + list(itertools.accumulate(seq_lens))` is the scan of
addition from 0; the loop runs over `enumerate(zip(seq_lens, start_loc_list))`
(Python `zip` truncates to the shorter list) and performs one region write
per batch index into the zero-initialised buffer. -/
def pack_tensor (unpacked : Nat → Nat → Int) (seq_lens : List Nat) :
    PackResult :=
  let num_tok := seq_lens.sum
  let start_loc_list := List.scanl (fun a b => a + b) 0 seq_lens
  let packed := ((seq_lens.zip start_loc_list).enum).foldl
    (fun buf p => write_region unpacked p.1 p.2.1 p.2.2 buf) (fun _ => 0)
  ⟨num_tok, packed, start_loc_list⟩

/-- The sampled baseline query buffer of `make_qkv` after the zeroing loop
`query[bdx, q_seq_len:, :, :] = 0`: row `bdx` keeps the random content
`raw bdx p` for `p < q_seq_lens[bdx]` and is zero beyond.  (The key and
value baselines are built by the same two statements from `kv_seq_lens`;
the definition is shared, instantiated per tensor in the theorems.) -/
def make_qkv_baseline (seq_lens : List Nat) (raw : Nat → Nat → Int) :
    Nat → Nat → Int :=
  fun bdx p => if p < seq_lens.getD bdx 0 then raw bdx p else 0

/-- The prefill view built by
`prefill_query[bdx, 0:(q_seq_len - 1), :, :] = query[bdx, 0:(q_seq_len - 1), :, :]`
on a zero buffer. -/
def make_qkv_prefill (seq_lens : List Nat) (raw : Nat → Nat → Int) :
    Nat → Nat → Int :=
  fun bdx p =>
    if p < seq_lens.getD bdx 0 - 1 then make_qkv_baseline seq_lens raw bdx p
    else 0

/-- The decode view built by
`decode_query[bdx, :, :, :] = query[bdx, (q_seq_len - 1):q_seq_len, :, :]`
on a zero buffer of width 1. -/
def make_qkv_decode (seq_lens : List Nat) (raw : Nat → Nat → Int) :
    Nat → Nat → Int :=
  fun bdx p =>
    if p = 0 then make_qkv_baseline seq_lens raw bdx (seq_lens.getD bdx 0 - 1)
    else 0

/-- `prefill_q_seq_lens = [plen - 1 for plen in q_seq_lens]` (identically
for `prefill_kv_seq_lens` from `kv_seq_lens`). -/
def make_qkv_prefill_seq_lens (seq_lens : List Nat) : List Nat :=
  seq_lens.map (fun plen => plen - 1)

/-- `decode_q_seq_lens = [1 for _ in q_seq_lens]` (identically for
`decode_kv_seq_lens`). -/
def make_qkv_decode_seq_lens (seq_lens : List Nat) : List Nat :=
  seq_lens.map (fun _ => 1)

/-- The sequence-axis width of the allocated prefill query buffer:
`prefill_query = torch.zeros((batch_size, max_q_seq_len, num_heads, head_size))`,
so the width is `max_q_seq_len` (the prefill key/value buffers use
`max_kv_seq_len` in the same way). -/
def make_qkv_prefill_width (max_seq_len : Nat) : Nat := max_seq_len

/-! ### Helper lemmas about `List.scanl (+)` (the `start_loc` list) -/

theorem scanl_add_getD (L : List Nat) (b i : Nat) (h : i ≤ L.length) :
    (List.scanl (fun a c => a + c) b L).getD i 0 = b + (L.take i).sum := by
  induction L generalizing b i with
  | nil =>
    have hi0 : i = 0 := by simpa using h
    subst hi0
    simp [List.scanl_nil]
  | cons a l ih =>
    rw [List.scanl_cons]
    cases i with
    | zero => simp
    | succ i =>
      have hi : i ≤ l.length := by simpa using h
      simp only [List.cons_append, List.nil_append, List.getD_cons_succ]
      rw [ih (b + a) i hi, List.take_succ_cons, List.sum_cons]
      omega

theorem scanl_add_head (L : List Nat) (b : Nat) :
    (List.scanl (fun a c => a + c) b L).head? = some b := by
  cases L with
  | nil => simp [List.scanl_nil]
  | cons a l => simp [List.scanl_cons]

theorem scanl_add_chain (L : List Nat) (b : Nat) :
    List.Chain' (· ≤ ·) (List.scanl (fun a c => a + c) b L) := by
  induction L generalizing b with
  | nil => simp [List.scanl_nil]
  | cons a l ih =>
    rw [List.scanl_cons]
    simp only [List.cons_append, List.nil_append]
    rw [List.chain'_cons']
    refine ⟨?_, ih (b + a)⟩
    intro y hy
    rw [scanl_add_head] at hy
    simp only [Option.mem_def, Option.some.injEq] at hy
    omega

theorem scanl_add_eq_map_take_sum (L : List Nat) :
    List.scanl (fun a c => a + c) 0 L =
      (List.range (L.length + 1)).map (fun i => (L.take i).sum) := by
  apply List.ext_getElem
  · simp [List.length_scanl]
  · intro i h1 h2
    have hi : i ≤ L.length := by
      rw [List.length_scanl] at h1; omega
    have := scanl_add_getD L 0 i hi
    rw [List.getD_eq_getElem _ _ h1] at this
    rw [this, List.getElem_map, List.getElem_range]
    omega

theorem scanl_add_getLast (L : List Nat) :
    (List.scanl (fun a c => a + c) 0 L).getLast? = some L.sum := by
  rw [scanl_add_eq_map_take_sum, List.getLast?_eq_getElem?]
  have hlen : ((List.range (L.length + 1)).map (fun i => (L.take i).sum)).length
      = L.length + 1 := by simp
  rw [hlen]
  simp only [Nat.add_sub_cancel]
  rw [List.getElem?_map, List.getElem?_range (Nat.lt_succ_self _)]
  simp [List.take_length]

/-! ### Fold analysis of the `pack_tensor` write loop -/

/-- A flat index untouched by every region of the remaining loop iterations
reads the incoming buffer. -/
theorem foldl_write_out (u : Nat → Nat → Int) (ps : List (Nat × Nat × Nat))
    (buf : Nat → Int) (j : Nat)
    (h : ∀ p ∈ ps, ¬(p.2.2 ≤ j ∧ j < p.2.2 + p.2.1)) :
    (ps.foldl (fun b p => write_region u p.1 p.2.1 p.2.2 b) buf) j = buf j := by
  induction ps generalizing buf with
  | nil => rfl
  | cons p ps ih =>
    rw [List.foldl_cons]
    rw [ih _ (fun q hq => h q (List.mem_cons_of_mem _ hq))]
    have hp := h p (List.mem_cons_self _ _)
    simp only [write_region, if_neg hp]

/-- A flat index inside the region of iteration `p`, and outside every later
region, reads the row that iteration `p` copies. -/
theorem foldl_write_split (u : Nat → Nat → Int)
    (xs ys : List (Nat × Nat × Nat)) (p : Nat × Nat × Nat)
    (buf : Nat → Int) (j : Nat)
    (hin : p.2.2 ≤ j ∧ j < p.2.2 + p.2.1)
    (hout : ∀ q ∈ ys, ¬(q.2.2 ≤ j ∧ j < q.2.2 + q.2.1)) :
    ((xs ++ p :: ys).foldl (fun b q => write_region u q.1 q.2.1 q.2.2 b) buf) j
      = u p.1 (j - p.2.2) := by
  rw [List.foldl_append, List.foldl_cons]
  rw [foldl_write_out u ys _ j hout]
  simp only [write_region, if_pos hin]

theorem sum_take_mono (L : List Nat) (i k : Nat) (h : i ≤ k) :
    (L.take i).sum ≤ (L.take k).sum := by
  conv_rhs => rw [show k = i + (k - i) by omega]
  rw [List.take_add, List.sum_append]
  omega

theorem zip_enum_getElem (L SL : List Nat) (k : Nat) (hk : k < L.length)
    (hk2 : k < SL.length) (h : k < ((L.zip SL).enum).length) :
    ((L.zip SL).enum)[k] = (k, (L[k], SL[k])) := by
  rw [List.getElem_enum]
  congr 1
  exact List.getElem_zip

/-- Core of the `pack_tensor` round trip: the write of batch row `i` lands at
`start_loc[i] + t` and no later iteration overwrites it. -/
theorem pack_tensor_read (u : Nat → Nat → Int) (L : List Nat) (i t : Nat)
    (hi : i < L.length) (ht : t < L.getD i 0) :
    (pack_tensor u L).packed ((pack_tensor u L).start_loc_list.getD i 0 + t)
      = u i t := by
  have hL : L.getD i 0 = L[i] := List.getD_eq_getElem L 0 hi
  set SL := List.scanl (fun a c => a + c) 0 L with hSLdef
  have hSLlen : SL.length = L.length + 1 := List.length_scanl 0 L
  have hSD : ∀ k, k ≤ L.length → SL.getD k 0 = (L.take k).sum := by
    intro k hk
    rw [hSLdef, scanl_add_getD L 0 k hk, Nat.zero_add]
  have hps_len : ((L.zip SL).enum).length = L.length := by
    rw [List.enum_length, List.length_zip, hSLlen]
    omega
  have hps_get : ∀ k, (hk : k < L.length) → ∀ (hk2 : k < ((L.zip SL).enum).length),
      ((L.zip SL).enum)[k] = (k, (L[k], SL.getD k 0)) := by
    intro k hk hk2
    rw [List.getD_eq_getElem SL 0 (show k < SL.length by omega)]
    exact zip_enum_getElem L SL k hk (by omega) hk2
  have hsl : (pack_tensor u L).start_loc_list = SL := rfl
  have hpk : (pack_tensor u L).packed =
      (((L.zip SL).enum).foldl (fun b p => write_region u p.1 p.2.1 p.2.2 b)
        (fun _ => 0)) :=
    rfl
  rw [hsl, hpk]
  have hii : i < ((L.zip SL).enum).length := by omega
  have hsplit : (L.zip SL).enum =
      ((L.zip SL).enum).take i ++
        ((L.zip SL).enum)[i] :: ((L.zip SL).enum).drop (i + 1) := by
    conv_lhs => rw [← List.take_append_drop i ((L.zip SL).enum)]
    congr 1
    exact List.drop_eq_getElem_cons hii
  have hgi := hps_get i hi hii
  rw [hSD i (by omega)]
  conv_lhs => rw [hsplit]
  rw [foldl_write_split u _ _ _ _ _ ?hin ?hout]
  case hin =>
    rw [hgi]
    dsimp only
    rw [hSD i (by omega)]
    omega
  case hout =>
    intro q hq
    rw [List.mem_drop_iff_getElem] at hq
    obtain ⟨m, hm, hqe⟩ := hq
    have hm2 : i + 1 + m < L.length := by omega
    have hq2 : q = ((i + 1 + m), (L[i + 1 + m], SL.getD (i + 1 + m) 0)) := by
      rw [← hqe]
      exact hps_get (i + 1 + m) hm2 (by omega)
    have hge : (L.take (i + 1)).sum ≤ (L.take (i + 1 + m)).sum :=
      sum_take_mono L (i + 1) (i + 1 + m) (by omega)
    have hsucc : (L.take (i + 1)).sum = (L.take i).sum + L[i] :=
      List.sum_take_succ L i hi
    rw [hq2]
    dsimp only
    rw [hSD (i + 1 + m) (by omega)]
    omega
  · rw [hgi]
    dsimp only
    rw [hSD i (by omega)]
    congr 1
    omega

/-! ### Closed form of the allocator loop -/

/-- The sequence of `(num_tokens, block_table)` pairs produced by the main
loop of `make_block_tables_slot_mapping`, starting from block base index
`b`: each sequence takes `num_tokens_to_min_blocks` descending addresses
and the base index decreases by that amount. -/
def seqs_from (block_size : Nat) (b : Int) : List Nat → List (Nat × List Int)
  | [] => []
  | n :: rest =>
    let nb := num_tokens_to_min_blocks n block_size
    (n, seq_block_table b nb) :: seqs_from block_size (b - nb) rest

/-- Total number of blocks over a length list. -/
def total_blocks (block_size : Nat) (L : List Nat) : Nat :=
  (L.map (fun n => num_tokens_to_min_blocks n block_size)).sum

/-- The loop of `make_block_tables_slot_mapping`, expressed as the closed
form `seqs_from`. -/
theorem btsm_foldl_eq (bs : Nat) (L : List Nat) : ∀ st : BTSMState,
    L.foldl (btsm_step bs) st =
      ⟨st.block_base_idx - (total_blocks bs L : Int),
       st.block_tables ++ (seqs_from bs st.block_base_idx L).map Prod.snd,
       st.prefill_slot_mapping ++
         ((seqs_from bs st.block_base_idx L).map
           (fun p => seq_prefill_slots bs p.2 p.1)).flatten,
       st.decode_slot_mapping ++
         ((seqs_from bs st.block_base_idx L).map
           (fun p => seq_decode_slots bs p.2 p.1)).flatten,
       st.slot_mapping ++
         ((seqs_from bs st.block_base_idx L).map
           (fun p => seq_slot_mapping bs p.2 p.1)).flatten⟩ := by
  induction L with
  | nil =>
    intro st
    cases st
    simp [seqs_from, total_blocks]
  | cons n rest ih =>
    intro st
    rw [List.foldl_cons, ih (btsm_step bs st n)]
    cases st with
    | mk bbi bts pre dec slo =>
      simp only [btsm_step, seqs_from, total_blocks, List.map_cons,
        List.sum_cons, List.flatten_cons, List.append_assoc,
        List.cons_append, List.nil_append]
      refine BTSMState.mk.injEq .. ▸ ⟨?_, rfl, rfl, rfl, rfl⟩
      push_cast
      ring

/-- Characterization of a successful `make_block_tables_slot_mapping` call:
the returned fields are the `seqs_from` closed forms taken from the highest
address `block_base_addr + total_blocks`. -/
theorem make_btsm_spec (bs : Nat) (L : List Nat) (base : Int) (r : BTSMResult)
    (h : make_block_tables_slot_mapping bs L base = Except.ok r) :
    r.block_tables =
        (seqs_from bs (base + (total_blocks bs L : Int)) L).map Prod.snd ∧
      r.prefill_slot_mapping =
        ((seqs_from bs (base + (total_blocks bs L : Int)) L).map
          (fun p => seq_prefill_slots bs p.2 p.1)).flatten ∧
      r.decode_slot_mapping =
        ((seqs_from bs (base + (total_blocks bs L : Int)) L).map
          (fun p => seq_decode_slots bs p.2 p.1)).flatten ∧
      r.slot_mapping =
        ((seqs_from bs (base + (total_blocks bs L : Int)) L).map
          (fun p => seq_slot_mapping bs p.2 p.1)).flatten ∧
      r.max_block_idx = base + (total_blocks bs L : Int) := by
  cases L with
  | nil => simp [make_block_tables_slot_mapping, pymax] at h
  | cons n rest =>
    rw [make_block_tables_slot_mapping] at h
    simp only [pymax, List.map_cons] at h
    rw [btsm_foldl_eq] at h
    have h2 := Except.ok.inj h
    subst h2
    have htot : ((List.map (fun n => num_tokens_to_min_blocks n bs) (n :: rest)).sum : Nat)
        = total_blocks bs (n :: rest) := by
      rw [total_blocks]
    simp only [List.map_cons] at htot
    refine ⟨?_, ?_, ?_, ?_, ?_⟩ <;> simp [htot]

/-! ### Per-sequence lemmas -/

theorem length_seq_block_table (b : Int) (nb : Nat) :
    (seq_block_table b nb).length = nb := by
  simp [seq_block_table]

theorem seq_block_table_getD (b : Int) (nb j : Nat) (hj : j < nb) :
    (seq_block_table b nb).getD j 0 = b - j := by
  rw [seq_block_table,
    List.getD_eq_getElem _ _ (by simpa using hj), List.getElem_map,
    List.getElem_range]

theorem mem_seq_block_table (b : Int) (nb : Nat) (a : Int)
    (ha : a ∈ seq_block_table b nb) : b - nb + 1 ≤ a ∧ a ≤ b := by
  rw [seq_block_table, List.mem_map] at ha
  obtain ⟨i, hi, rfl⟩ := ha
  rw [List.mem_range] at hi
  omega

/-- A token index below `num_tokens` addresses a block strictly inside the
over-provisioned block count `(num_tokens + block_size) / block_size`. -/
theorem div_lt_min_blocks (bs n idx : Nat) (hbs : 1 ≤ bs) (hidx : idx < n) :
    idx / bs < num_tokens_to_min_blocks n bs := by
  rw [num_tokens_to_min_blocks]
  rw [Nat.div_lt_iff_lt_mul (by omega : 0 < bs)]
  have hdm := Nat.div_add_mod (n + bs) bs
  have hmlt : (n + bs) % bs < bs := Nat.mod_lt _ (by omega)
  set q := (n + bs) / bs
  set m := bs * q with hm
  rw [Nat.mul_comm]
  omega

theorem slot_value_closed (bs n idx : Nat) (b : Int) (hbs : 1 ≤ bs)
    (hidx : idx < n) :
    slot_value bs (seq_block_table b (num_tokens_to_min_blocks n bs)) idx =
      ((idx % bs : Nat) : Int) + (b - ((idx / bs : Nat) : Int)) * bs := by
  rw [slot_value, seq_block_table_getD _ _ _ (div_lt_min_blocks bs n idx hbs hidx)]

theorem slot_value_bounds (bs n idx : Nat) (b : Int) (hbs : 1 ≤ bs)
    (hidx : idx < n) :
    (b - (num_tokens_to_min_blocks n bs : Int) + 1) * bs ≤
        slot_value bs (seq_block_table b (num_tokens_to_min_blocks n bs)) idx ∧
      slot_value bs (seq_block_table b (num_tokens_to_min_blocks n bs)) idx <
        (b + 1) * bs := by
  rw [slot_value_closed bs n idx b hbs hidx]
  have hq : idx / bs < num_tokens_to_min_blocks n bs :=
    div_lt_min_blocks bs n idx hbs hidx
  have ho : idx % bs < bs := Nat.mod_lt _ (by omega)
  have hoi : ((idx % bs : Nat) : Int) < (bs : Int) := by exact_mod_cast ho
  have hoi0 : (0 : Int) ≤ ((idx % bs : Nat) : Int) := Int.natCast_nonneg _
  have hqi : ((idx / bs : Nat) : Int) < ((num_tokens_to_min_blocks n bs : Nat) : Int) := by
    exact_mod_cast hq
  have hqi0 : (0 : Int) ≤ ((idx / bs : Nat) : Int) := Int.natCast_nonneg _
  have hbsi : (1 : Int) ≤ (bs : Int) := by exact_mod_cast hbs
  constructor
  · have h1 : (b - (num_tokens_to_min_blocks n bs : Int) + 1) * bs ≤
        (b - ((idx / bs : Nat) : Int)) * bs :=
      mul_le_mul_of_nonneg_right (by omega) (by omega)
    omega
  · have h1 : (b - ((idx / bs : Nat) : Int)) * bs ≤ b * bs :=
      mul_le_mul_of_nonneg_right (by omega) (by omega)
    have h2 : (b + 1) * bs = b * bs + bs := by ring
    omega

theorem slot_value_ediv (bs n idx : Nat) (b : Int) (hbs : 1 ≤ bs)
    (hidx : idx < n) :
    slot_value bs (seq_block_table b (num_tokens_to_min_blocks n bs)) idx / (bs : Int) =
      b - ((idx / bs : Nat) : Int) := by
  rw [slot_value_closed bs n idx b hbs hidx]
  have hbs0 : (bs : Int) ≠ 0 := by
    have : (1 : Int) ≤ (bs : Int) := by exact_mod_cast hbs
    omega
  rw [Int.add_mul_ediv_right _ _ hbs0]
  have ho : idx % bs < bs := Nat.mod_lt _ (by omega)
  rw [Int.ediv_eq_zero_of_lt (Int.natCast_nonneg _) (by exact_mod_cast ho)]
  omega

theorem slot_value_emod (bs n idx : Nat) (b : Int) (hbs : 1 ≤ bs)
    (hidx : idx < n) :
    slot_value bs (seq_block_table b (num_tokens_to_min_blocks n bs)) idx % (bs : Int) =
      ((idx % bs : Nat) : Int) := by
  rw [slot_value_closed bs n idx b hbs hidx, mul_comm,
    Int.add_mul_emod_self_left]
  have ho : idx % bs < bs := Nat.mod_lt _ (by omega)
  exact Int.emod_eq_of_lt (Int.natCast_nonneg _) (by exact_mod_cast ho)

/-- Within one sequence, `slot_value` is injective on token indices. -/
theorem slot_value_inj (bs n idx1 idx2 : Nat) (b : Int) (hbs : 1 ≤ bs)
    (h1 : idx1 < n) (h2 : idx2 < n)
    (heq : slot_value bs (seq_block_table b (num_tokens_to_min_blocks n bs)) idx1 =
      slot_value bs (seq_block_table b (num_tokens_to_min_blocks n bs)) idx2) :
    idx1 = idx2 := by
  have hd1 := slot_value_ediv bs n idx1 b hbs h1
  have hd2 := slot_value_ediv bs n idx2 b hbs h2
  have hm1 := slot_value_emod bs n idx1 b hbs h1
  have hm2 := slot_value_emod bs n idx2 b hbs h2
  rw [heq] at hd1 hm1
  rw [hd2] at hd1
  rw [hm2] at hm1
  have hq : idx1 / bs = idx2 / bs := by
    have : ((idx2 / bs : Nat) : Int) = ((idx1 / bs : Nat) : Int) := by omega
    exact_mod_cast this.symm
  have ho : idx1 % bs = idx2 % bs := by
    have : ((idx2 % bs : Nat) : Int) = ((idx1 % bs : Nat) : Int) := hm1
    exact_mod_cast this.symm
  calc idx1 = bs * (idx1 / bs) + idx1 % bs := (Nat.div_add_mod idx1 bs).symm
    _ = bs * (idx2 / bs) + idx2 % bs := by rw [hq, ho]
    _ = idx2 := Nat.div_add_mod idx2 bs

/-- The prefill branch keeps exactly the first `num_tokens - 1` token
indices. -/
theorem seq_prefill_slots_eq (bs : Nat) (bt : List Int) (n : Nat) :
    seq_prefill_slots bs bt n = (List.range (n - 1)).map (slot_value bs bt) := by
  rw [seq_prefill_slots]
  congr 1
  cases n with
  | zero => simp
  | succ m =>
    rw [List.range_succ, List.filter_append, Nat.add_sub_cancel]
    have h1 : (List.range m).filter (fun idx => decide (idx < m)) = List.range m := by
      rw [List.filter_eq_self]
      intro a ha
      rw [List.mem_range] at ha
      simpa using ha
    have h2 : ([m].filter (fun idx => decide (idx < m))) = [] := by
      simp
    rw [h1, h2, List.append_nil]

/-- The decode branch keeps exactly the final token index (one entry per
sequence of at least one token). -/
theorem seq_decode_slots_eq (bs : Nat) (bt : List Int) (n : Nat) (hn : 1 ≤ n) :
    seq_decode_slots bs bt n = [slot_value bs bt (n - 1)] := by
  rw [seq_decode_slots]
  have hr : List.range n = List.range (n - 1) ++ [n - 1] := by
    conv_lhs => rw [show n = (n - 1) + 1 by omega]
    exact List.range_succ (n - 1)
  rw [hr, List.filter_append]
  have h1 : (List.range (n - 1)).filter
      (fun idx => !decide (idx < n - 1) && decide (idx = n - 1)) = [] := by
    rw [List.filter_eq_nil_iff]
    intro a ha
    rw [List.mem_range] at ha
    simp [ha]
  have h2 : ([n - 1].filter
      (fun idx => !decide (idx < n - 1) && decide (idx = n - 1))) = [n - 1] := by
    simp
  rw [h1, h2, List.nil_append, List.map_singleton]

/-! ### Structural lemmas about `seqs_from` -/

theorem seqs_from_length (bs : Nat) (b : Int) (L : List Nat) :
    (seqs_from bs b L).length = L.length := by
  induction L generalizing b with
  | nil => rfl
  | cons n rest ih => simp [seqs_from, ih]

theorem seqs_from_map_fst (bs : Nat) (b : Int) (L : List Nat) :
    (seqs_from bs b L).map Prod.fst = L := by
  induction L generalizing b with
  | nil => rfl
  | cons n rest ih => simp [seqs_from, ih]

/-- Every pair of the closed form is a block table of the right length for
its token count, at some base index between `b - total + nb` and `b`. -/
theorem seqs_from_mem (bs : Nat) (b : Int) (L : List Nat)
    (p : Nat × List Int) (hp : p ∈ seqs_from bs b L) :
    p.1 ∈ L ∧ ∃ c : Int,
      p.2 = seq_block_table c (num_tokens_to_min_blocks p.1 bs) ∧
      b - (total_blocks bs L : Int) + (num_tokens_to_min_blocks p.1 bs : Int) ≤ c ∧
      c ≤ b := by
  induction L generalizing b with
  | nil => simp [seqs_from] at hp
  | cons n rest ih =>
    rw [seqs_from] at hp
    simp only [List.mem_cons] at hp
    rcases hp with hp | hp
    · subst hp
      dsimp only
      refine ⟨List.mem_cons_self _ _, b, rfl, ?_, le_refl b⟩
      have : num_tokens_to_min_blocks n bs ≤ total_blocks bs (n :: rest) := by
        rw [total_blocks, List.map_cons, List.sum_cons]
        omega
      omega
    · obtain ⟨h1, c, h2, h3, h4⟩ :=
        ih (b - (num_tokens_to_min_blocks n bs : Int)) hp
      refine ⟨List.mem_cons_of_mem _ h1, c, h2, ?_, ?_⟩
      · have : total_blocks bs (n :: rest) =
            num_tokens_to_min_blocks n bs + total_blocks bs rest := by
          rw [total_blocks, total_blocks, List.map_cons, List.sum_cons]
        rw [this]
        push_cast
        omega
      · omega

/-- The concatenation of all block tables is the full descending address
list from `b` down to `b - total + 1`. -/
theorem seqs_from_tables_flatten (bs : Nat) (b : Int) (L : List Nat) :
    ((seqs_from bs b L).map Prod.snd).flatten =
      (List.range (total_blocks bs L)).map (fun i : Nat => b - (i : Int)) := by
  induction L generalizing b with
  | nil => simp [seqs_from, total_blocks]
  | cons n rest ih =>
    rw [seqs_from]
    simp only [List.map_cons, List.flatten_cons]
    rw [ih (b - (num_tokens_to_min_blocks n bs : Int))]
    have htot : total_blocks bs (n :: rest) =
        num_tokens_to_min_blocks n bs + total_blocks bs rest := by
      rw [total_blocks, total_blocks, List.map_cons, List.sum_cons]
    rw [htot, List.range_add, List.map_append, seq_block_table]
    congr 1
    rw [List.map_map]
    apply List.map_congr_left
    intro a _
    simp only [Function.comp_apply]
    push_cast
    ring

theorem seqs_from_tables_map_length (bs : Nat) (b : Int) (L : List Nat) :
    ((seqs_from bs b L).map Prod.snd).map List.length =
      L.map (fun n => num_tokens_to_min_blocks n bs) := by
  induction L generalizing b with
  | nil => rfl
  | cons n rest ih =>
    simp only [seqs_from, List.map_cons]
    rw [ih, length_seq_block_table]

/-- Decomposition of membership in the combined slot mapping. -/
theorem mem_slots_from (bs : Nat) (b : Int) (L : List Nat) (s : Int)
    (hs : s ∈ ((seqs_from bs b L).map
      (fun p => seq_slot_mapping bs p.2 p.1)).flatten) :
    ∃ p ∈ seqs_from bs b L, ∃ idx, idx < p.1 ∧ s = slot_value bs p.2 idx := by
  rw [List.mem_flatten] at hs
  obtain ⟨l, hl, hsl⟩ := hs
  rw [List.mem_map] at hl
  obtain ⟨p, hp, rfl⟩ := hl
  rw [seq_slot_mapping, List.mem_map] at hsl
  obtain ⟨idx, hidx, rfl⟩ := hsl
  rw [List.mem_range] at hidx
  exact ⟨p, hp, idx, hidx, rfl⟩

/-- Every combined-slot-mapping value lies in
`[(b - total + 1) * bs, (b + 1) * bs)`, `b` being the highest address. -/
theorem slots_from_bounds (bs : Nat) (b : Int) (L : List Nat) (hbs : 1 ≤ bs)
    (s : Int)
    (hs : s ∈ ((seqs_from bs b L).map
      (fun p => seq_slot_mapping bs p.2 p.1)).flatten) :
    (b - (total_blocks bs L : Int) + 1) * bs ≤ s ∧ s < (b + 1) * bs := by
  obtain ⟨p, hp, idx, hidx, rfl⟩ := mem_slots_from bs b L s hs
  obtain ⟨-, c, hbt, hc1, hc2⟩ := seqs_from_mem bs b L p hp
  rw [hbt]
  obtain ⟨hlo, hhi⟩ := slot_value_bounds bs p.1 idx c hbs hidx
  have hbs0 : (0 : Int) ≤ (bs : Int) := Int.natCast_nonneg _
  constructor
  · refine le_trans (mul_le_mul_of_nonneg_right ?_ hbs0) hlo
    omega
  · refine lt_of_lt_of_le hhi (mul_le_mul_of_nonneg_right ?_ hbs0)
    omega

/-- Every combined-slot-mapping value has Euclidean quotient (its block
address) at most the starting base index `b`. -/
theorem slots_from_ediv_ub (bs : Nat) (b : Int) (L : List Nat) (hbs : 1 ≤ bs)
    (s : Int)
    (hs : s ∈ ((seqs_from bs b L).map
      (fun p => seq_slot_mapping bs p.2 p.1)).flatten) :
    s / (bs : Int) ≤ b := by
  obtain ⟨p, hp, idx, hidx, rfl⟩ := mem_slots_from bs b L s hs
  obtain ⟨-, c, hbt, hc1, hc2⟩ := seqs_from_mem bs b L p hp
  rw [hbt, slot_value_ediv bs p.1 idx c hbs hidx]
  have := Int.natCast_nonneg (idx / bs)
  omega

theorem seq_slot_mapping_nodup (bs n : Nat) (c : Int) (hbs : 1 ≤ bs) :
    (seq_slot_mapping bs (seq_block_table c (num_tokens_to_min_blocks n bs)) n).Nodup := by
  rw [seq_slot_mapping]
  refine List.Nodup.map_on ?_ (List.nodup_range n)
  intro x hx y hy hxy
  rw [List.mem_range] at hx hy
  exact slot_value_inj bs n x y c hbs hx hy hxy

/-- The per-sequence slot lists are pairwise disjoint: each sequence
occupies its own block-address range. -/
theorem slots_from_pairwise (bs : Nat) (b : Int) (L : List Nat) (hbs : 1 ≤ bs) :
    List.Pairwise List.Disjoint
      ((seqs_from bs b L).map (fun p => seq_slot_mapping bs p.2 p.1)) := by
  induction L generalizing b with
  | nil => simp [seqs_from]
  | cons n rest ih =>
    rw [seqs_from]
    simp only [List.map_cons]
    rw [List.pairwise_cons]
    refine ⟨?_, ih _⟩
    intro l' hl' s hsH hsT
    have hdivH : b - (num_tokens_to_min_blocks n bs : Int) + 1 ≤ s / (bs : Int) := by
      rw [seq_slot_mapping, List.mem_map] at hsH
      obtain ⟨idx, hidx, rfl⟩ := hsH
      rw [List.mem_range] at hidx
      rw [slot_value_ediv bs n idx b hbs hidx]
      have hq := div_lt_min_blocks bs n idx hbs hidx
      have : ((idx / bs : Nat) : Int) < (num_tokens_to_min_blocks n bs : Int) := by
        exact_mod_cast hq
      omega
    have hdivT : s / (bs : Int) ≤ b - (num_tokens_to_min_blocks n bs : Int) := by
      refine slots_from_ediv_ub bs _ rest hbs s ?_
      rw [List.mem_flatten]
      exact ⟨l', hl', hsT⟩
    omega

/-- The combined slot mapping never maps two tokens to the same slot. -/
theorem slots_from_nodup (bs : Nat) (b : Int) (L : List Nat) (hbs : 1 ≤ bs) :
    ((seqs_from bs b L).map
      (fun p => seq_slot_mapping bs p.2 p.1)).flatten.Nodup := by
  rw [List.nodup_flatten]
  refine ⟨?_, slots_from_pairwise bs b L hbs⟩
  intro l hl
  rw [List.mem_map] at hl
  obtain ⟨p, hp, rfl⟩ := hl
  obtain ⟨-, c, hbt, -, -⟩ := seqs_from_mem bs b L p hp
  rw [hbt]
  exact seq_slot_mapping_nodup bs p.1 c hbs

/-- Distinct sequences receive disjoint block tables. -/
theorem tables_from_pairwise (bs : Nat) (b : Int) (L : List Nat) :
    List.Pairwise List.Disjoint ((seqs_from bs b L).map Prod.snd) := by
  induction L generalizing b with
  | nil => simp [seqs_from]
  | cons n rest ih =>
    rw [seqs_from]
    simp only [List.map_cons]
    rw [List.pairwise_cons]
    refine ⟨?_, ih _⟩
    intro l' hl' a haH haT
    have hH := mem_seq_block_table b (num_tokens_to_min_blocks n bs) a haH
    have hT : a ∈ ((seqs_from bs (b - (num_tokens_to_min_blocks n bs : Int)) rest).map
        Prod.snd).flatten := by
      rw [List.mem_flatten]
      exact ⟨l', hl', haT⟩
    rw [seqs_from_tables_flatten, List.mem_map] at hT
    obtain ⟨i, -, hi⟩ := hT
    have := Int.natCast_nonneg i
    omega

theorem decode_from_length (bs : Nat) (b : Int) (L : List Nat)
    (hL : ∀ n ∈ L, 1 ≤ n) :
    ((seqs_from bs b L).map
      (fun p => seq_decode_slots bs p.2 p.1)).flatten.length = L.length := by
  induction L generalizing b with
  | nil => rfl
  | cons n rest ih =>
    rw [seqs_from]
    simp only [List.map_cons, List.flatten_cons, List.length_append]
    rw [ih _ (fun m hm => hL m (List.mem_cons_of_mem _ hm))]
    rw [seq_decode_slots_eq bs _ n (hL n (List.mem_cons_self _ _))]
    simp only [List.length_cons, List.length_nil]
    omega

theorem prefill_from_map_length (bs : Nat) (b : Int) (L : List Nat) :
    ((seqs_from bs b L).map (fun p => seq_prefill_slots bs p.2 p.1)).map
        List.length = L.map (fun n => n - 1) := by
  induction L generalizing b with
  | nil => rfl
  | cons n rest ih =>
    rw [seqs_from]
    simp only [List.map_cons]
    rw [ih, seq_prefill_slots_eq]
    simp

theorem slots_from_flatten_length (bs : Nat) (b : Int) (L : List Nat) :
    ((seqs_from bs b L).map
      (fun p => seq_slot_mapping bs p.2 p.1)).flatten.length = L.sum := by
  induction L generalizing b with
  | nil => rfl
  | cons n rest ih =>
    rw [seqs_from]
    simp only [List.map_cons, List.flatten_cons, List.length_append,
      List.sum_cons]
    rw [ih]
    simp [seq_slot_mapping]

theorem min_blocks_pos (bs n : Nat) (hbs : 1 ≤ bs) :
    1 ≤ num_tokens_to_min_blocks n bs := by
  rw [num_tokens_to_min_blocks, Nat.le_div_iff_mul_le (by omega : 0 < bs)]
  omega

theorem getLast_range_map (f : Nat → Int) (t : Nat) (ht : 1 ≤ t) :
    ((List.range t).map f).getLast? = some (f (t - 1)) := by
  have hr : List.range t = List.range (t - 1) ++ [t - 1] := by
    conv_lhs => rw [show t = (t - 1) + 1 by omega]
    exact List.range_succ (t - 1)
  rw [hr, List.map_append, List.map_singleton, List.getLast?_concat]

theorem map_getD_lt (L : List Nat) (f : Nat → Nat) (i : Nat)
    (hi : i < L.length) :
    (L.map f).getD i 0 = f (L.getD i 0) := by
  rw [List.getD_eq_getElem _ _ (by simpa using hi), List.getElem_map,
    List.getD_eq_getElem _ _ hi]

/-- A prefill slot-mapping entry is also a combined slot-mapping entry. -/
theorem mem_prefill_sub (bs : Nat) (b : Int) (L : List Nat) (s : Int)
    (hs : s ∈ ((seqs_from bs b L).map
      (fun p => seq_prefill_slots bs p.2 p.1)).flatten) :
    s ∈ ((seqs_from bs b L).map
      (fun p => seq_slot_mapping bs p.2 p.1)).flatten := by
  rw [List.mem_flatten] at hs ⊢
  obtain ⟨l, hl, hsl⟩ := hs
  rw [List.mem_map] at hl
  obtain ⟨p, hp, rfl⟩ := hl
  refine ⟨seq_slot_mapping bs p.2 p.1, List.mem_map_of_mem _ hp, ?_⟩
  rw [seq_prefill_slots, List.mem_map] at hsl
  obtain ⟨idx, hidx, rfl⟩ := hsl
  rw [List.mem_filter] at hidx
  rw [seq_slot_mapping, List.mem_map]
  exact ⟨idx, hidx.1, rfl⟩

/-- A decode slot-mapping entry is also a combined slot-mapping entry. -/
theorem mem_decode_sub (bs : Nat) (b : Int) (L : List Nat) (s : Int)
    (hs : s ∈ ((seqs_from bs b L).map
      (fun p => seq_decode_slots bs p.2 p.1)).flatten) :
    s ∈ ((seqs_from bs b L).map
      (fun p => seq_slot_mapping bs p.2 p.1)).flatten := by
  rw [List.mem_flatten] at hs ⊢
  obtain ⟨l, hl, hsl⟩ := hs
  rw [List.mem_map] at hl
  obtain ⟨p, hp, rfl⟩ := hl
  refine ⟨seq_slot_mapping bs p.2 p.1, List.mem_map_of_mem _ hp, ?_⟩
  rw [seq_decode_slots, List.mem_map] at hsl
  obtain ⟨idx, hidx, rfl⟩ := hsl
  rw [List.mem_filter] at hidx
  rw [seq_slot_mapping, List.mem_map]
  exact ⟨idx, hidx.1, rfl⟩

/-! ### Claims -/

/-- C1: for `batch_size=2`, `seq_lens=[3,5]`, `block_size=4`,
`block_base_addr=0`, `make_block_tables_slot_mapping` produces block tables
`[3]` for sequence 0 and `[2,1]` for sequence 1, combined slot mapping
`[12,13,14,8,9,10,11,4]`, decode slot mapping `[14,4]`, prefill slot
mapping `[12,13,8,9,10,11]`, and `max_block_idx = 3`. -/
theorem claim_C1_concrete_scenario :
    make_block_tables_slot_mapping 4 [3, 5] 0 =
      Except.ok
        ⟨[[3], [2, 1]],
         [[3, 0, 0, 0, 0, 0, 0, 0, 0, 0, 0, 0],
          [2, 1, 0, 0, 0, 0, 0, 0, 0, 0, 0, 0]],
         [12, 13, 8, 9, 10, 11],
         [14, 4],
         [12, 13, 14, 8, 9, 10, 11, 4],
         3⟩ := by
  rfl

/-- C2 (counterexample): at `block_size=4`, `seq_lens=[3,5]`,
`block_base_addr=0`, the block tables are `[[3],[2,1]]` and the address
`0 = block_base_addr` is not assigned to any sequence — the lowest assigned
address is `1`, refuting "the lowest address assigned to any sequence in
the batch is exactly block_base_addr". -/
theorem claim_C2_counterexample :
    (make_block_tables_slot_mapping 4 [3, 5] 0).map BTSMResult.block_tables =
        Except.ok [[3], [2, 1]] ∧
      ¬ (0 : Int) ∈ ([[3], [2, 1]] : List (List Int)).flatten :=
  ⟨rfl, by decide⟩

/-- C2 (amended): with `block_size ≥ 1` and all sequence lengths ≥ 1, each
sequence of `n` tokens is assigned `(n + block_size) / block_size` blocks,
`max_block_idx = block_base_addr + total_blocks`, the concatenated block
tables are exactly the consecutive descending addresses starting at
`max_block_idx` (so sequence 0 receives the highest-addressed blocks), and
the lowest address assigned to any sequence is `block_base_addr + 1` (not
`block_base_addr`). -/
theorem claim_C2_descending_allocation (bs : Nat) (L : List Nat) (base : Int)
    (r : BTSMResult) (hbs : 1 ≤ bs) (_hpos : ∀ n ∈ L, 1 ≤ n)
    (hr : make_block_tables_slot_mapping bs L base = Except.ok r) :
    r.max_block_idx = base + (total_blocks bs L : Int) ∧
      r.block_tables.map List.length =
        L.map (fun n => num_tokens_to_min_blocks n bs) ∧
      r.block_tables.flatten =
        (List.range (total_blocks bs L)).map
          (fun i : Nat => base + (total_blocks bs L : Int) - (i : Int)) ∧
      r.block_tables.flatten.getLast? = some (base + 1) := by
  have htpos : 1 ≤ total_blocks bs L := by
    cases L with
    | nil => simp [make_block_tables_slot_mapping, pymax] at hr
    | cons n rest =>
      rw [total_blocks, List.map_cons, List.sum_cons]
      have := min_blocks_pos bs n hbs
      omega
  obtain ⟨ht, hpre, hdec, hslo, hmax⟩ := make_btsm_spec bs L base r hr
  refine ⟨hmax, ?_, ?_, ?_⟩
  · rw [ht, seqs_from_tables_map_length]
  · rw [ht, seqs_from_tables_flatten]
  · rw [ht, seqs_from_tables_flatten, getLast_range_map _ _ htpos]
    congr 1
    omega

/-- C2 (witness): the amended allocation facts evaluated at `block_size=4`,
`seq_lens=[3,5]`, `block_base_addr=0`. -/
theorem claim_C2_witness :
    btsm_example_result.max_block_idx = 0 + (total_blocks 4 [3, 5] : Int) ∧
      btsm_example_result.block_tables.map List.length =
        ([3, 5] : List Nat).map (fun n => num_tokens_to_min_blocks n 4) ∧
      btsm_example_result.block_tables.flatten =
        (List.range (total_blocks 4 [3, 5])).map
          (fun i : Nat => 0 + (total_blocks 4 [3, 5] : Int) - (i : Int)) ∧
      btsm_example_result.block_tables.flatten.getLast? = some (0 + 1) :=
  claim_C2_descending_allocation 4 [3, 5] 0 btsm_example_result
    (by decide) (by decide) rfl

/-- C3 (counterexample): at `block_size=4`, `seq_lens=[3,5]`,
`block_base_addr=0`, the combined slot mapping contains `12` while
`max_block_idx * block_size = 12`, so not every slot-mapping value is
below `max_block_idx * block_size`. -/
theorem claim_C3_counterexample :
    (make_block_tables_slot_mapping 4 [3, 5] 0).map BTSMResult.slot_mapping =
        Except.ok [12, 13, 14, 8, 9, 10, 11, 4] ∧
      (make_block_tables_slot_mapping 4 [3, 5] 0).map BTSMResult.max_block_idx =
        Except.ok 3 ∧
      ¬ ((12 : Int) < 3 * 4) :=
  ⟨rfl, rfl, by decide⟩

/-- C3 (amended): with `block_size ≥ 1` and all sequence lengths ≥ 1, every
value of the combined slot mapping (and of the prefill and decode
sub-mappings) lies in the half-open interval
`[block_base_addr * block_size, (max_block_idx + 1) * block_size)` — the
upper end is one block above `max_block_idx * block_size`, because the
highest-addressed block is block `max_block_idx` itself. -/
theorem claim_C3_slot_interval (bs : Nat) (L : List Nat) (base : Int)
    (r : BTSMResult) (s : Int) (hbs : 1 ≤ bs) (_hpos : ∀ n ∈ L, 1 ≤ n)
    (hr : make_block_tables_slot_mapping bs L base = Except.ok r)
    (hs : s ∈ r.slot_mapping ∨ s ∈ r.prefill_slot_mapping ∨
      s ∈ r.decode_slot_mapping) :
    base * (bs : Int) ≤ s ∧ s < (r.max_block_idx + 1) * (bs : Int) := by
  obtain ⟨ht, hpre, hdec, hslo, hmax⟩ := make_btsm_spec bs L base r hr
  have hs2 : s ∈ ((seqs_from bs (base + (total_blocks bs L : Int)) L).map
      (fun p => seq_slot_mapping bs p.2 p.1)).flatten := by
    rcases hs with h | h | h
    · rw [hslo] at h
      exact h
    · rw [hpre] at h
      exact mem_prefill_sub _ _ _ _ h
    · rw [hdec] at h
      exact mem_decode_sub _ _ _ _ h
  obtain ⟨hlo, hhi⟩ := slots_from_bounds bs _ L hbs s hs2
  rw [hmax]
  have hbs0 : (0 : Int) ≤ (bs : Int) := Int.natCast_nonneg _
  constructor
  · refine le_trans (mul_le_mul_of_nonneg_right ?_ hbs0) hlo
    omega
  · exact hhi

/-- C3 (witness): the slot value `12` of the concrete scenario lies in
`[0 * 4, (3 + 1) * 4)`. -/
theorem claim_C3_witness :
    (0 : Int) * ((4 : Nat) : Int) ≤ 12 ∧
      (12 : Int) < (btsm_example_result.max_block_idx + 1) * ((4 : Nat) : Int) :=
  claim_C3_slot_interval 4 [3, 5] 0 btsm_example_result 12
    (by decide) (by decide) rfl (Or.inl (by decide))

/-- C4: for every batch index `i` with sampled length ≥ 2 the prefill view
agrees with the baseline on positions up to `len-2`, the decode view's
single row is baseline position `len-1`, `prefill_q_seq_lens[i] = len-1`,
`decode_q_seq_lens[i] = 1`, and prefill and decode lengths partition the
baseline length; likewise for key and value using the kv lengths. -/
theorem claim_C4_prefill_decode_partition
    (q_seq_lens kv_seq_lens : List Nat) (rawq rawk rawv : Nat → Nat → Int)
    (i p pk : Nat)
    (hiq : i < q_seq_lens.length) (hik : i < kv_seq_lens.length)
    (hq2 : 2 ≤ q_seq_lens.getD i 0) (hk2 : 2 ≤ kv_seq_lens.getD i 0)
    (hp : p ≤ q_seq_lens.getD i 0 - 2) (hpk : pk ≤ kv_seq_lens.getD i 0 - 2) :
    make_qkv_prefill q_seq_lens rawq i p = make_qkv_baseline q_seq_lens rawq i p ∧
      make_qkv_prefill kv_seq_lens rawk i pk =
        make_qkv_baseline kv_seq_lens rawk i pk ∧
      make_qkv_prefill kv_seq_lens rawv i pk =
        make_qkv_baseline kv_seq_lens rawv i pk ∧
      make_qkv_decode q_seq_lens rawq i 0 =
        make_qkv_baseline q_seq_lens rawq i (q_seq_lens.getD i 0 - 1) ∧
      make_qkv_decode kv_seq_lens rawk i 0 =
        make_qkv_baseline kv_seq_lens rawk i (kv_seq_lens.getD i 0 - 1) ∧
      make_qkv_decode kv_seq_lens rawv i 0 =
        make_qkv_baseline kv_seq_lens rawv i (kv_seq_lens.getD i 0 - 1) ∧
      (make_qkv_prefill_seq_lens q_seq_lens).getD i 0 =
        q_seq_lens.getD i 0 - 1 ∧
      (make_qkv_decode_seq_lens q_seq_lens).getD i 0 = 1 ∧
      (make_qkv_prefill_seq_lens q_seq_lens).getD i 0 +
          (make_qkv_decode_seq_lens q_seq_lens).getD i 0 =
        q_seq_lens.getD i 0 ∧
      (make_qkv_prefill_seq_lens kv_seq_lens).getD i 0 +
          (make_qkv_decode_seq_lens kv_seq_lens).getD i 0 =
        kv_seq_lens.getD i 0 := by
  refine ⟨?_, ?_, ?_, ?_, ?_, ?_, ?_, ?_, ?_, ?_⟩
  · simp only [make_qkv_prefill]
    rw [if_pos (by omega)]
  · simp only [make_qkv_prefill]
    rw [if_pos (by omega)]
  · simp only [make_qkv_prefill]
    rw [if_pos (by omega)]
  · simp [make_qkv_decode]
  · simp [make_qkv_decode]
  · simp [make_qkv_decode]
  · rw [make_qkv_prefill_seq_lens, map_getD_lt _ _ i hiq]
  · rw [make_qkv_decode_seq_lens, map_getD_lt _ _ i hiq]
  · rw [make_qkv_prefill_seq_lens, make_qkv_decode_seq_lens,
      map_getD_lt _ _ i hiq, map_getD_lt _ _ i hiq]
    omega
  · rw [make_qkv_prefill_seq_lens, make_qkv_decode_seq_lens,
      map_getD_lt _ _ i hik, map_getD_lt _ _ i hik]
    omega

/-- C4 (witness): the partition facts evaluated at `q_seq_lens=[2]`,
`kv_seq_lens=[3]`, with concrete baseline contents. -/
theorem claim_C4_witness :
    make_qkv_prefill [2] (fun b q => (b + 10 * q : Int)) 0 0 =
        make_qkv_baseline [2] (fun b q => (b + 10 * q : Int)) 0 0 ∧
      make_qkv_prefill [3] (fun b q => (b + 20 * q : Int)) 0 1 =
        make_qkv_baseline [3] (fun b q => (b + 20 * q : Int)) 0 1 ∧
      make_qkv_prefill [3] (fun b q => (b + 30 * q : Int)) 0 1 =
        make_qkv_baseline [3] (fun b q => (b + 30 * q : Int)) 0 1 ∧
      make_qkv_decode [2] (fun b q => (b + 10 * q : Int)) 0 0 =
        make_qkv_baseline [2] (fun b q => (b + 10 * q : Int)) 0 1 ∧
      make_qkv_decode [3] (fun b q => (b + 20 * q : Int)) 0 0 =
        make_qkv_baseline [3] (fun b q => (b + 20 * q : Int)) 0 2 ∧
      make_qkv_decode [3] (fun b q => (b + 30 * q : Int)) 0 0 =
        make_qkv_baseline [3] (fun b q => (b + 30 * q : Int)) 0 2 ∧
      (make_qkv_prefill_seq_lens [2]).getD 0 0 = 1 ∧
      (make_qkv_decode_seq_lens [2]).getD 0 0 = 1 ∧
      (make_qkv_prefill_seq_lens [2]).getD 0 0 +
          (make_qkv_decode_seq_lens [2]).getD 0 0 = 2 ∧
      (make_qkv_prefill_seq_lens [3]).getD 0 0 +
          (make_qkv_decode_seq_lens [3]).getD 0 0 = 3 :=
  claim_C4_prefill_decode_partition [2] [3]
    (fun b q => (b + 10 * q : Int)) (fun b q => (b + 20 * q : Int))
    (fun b q => (b + 30 * q : Int)) 0 0 1
    (by decide) (by decide) (by decide) (by decide) (by decide) (by decide)

/-- C5 (counterexample): `make_qkv` allocates the prefill query buffer with
sequence-axis width `max_q_seq_len` (here `3`), not `max_q_seq_len - 1`
(`2`) as claimed. -/
theorem claim_C5_counterexample :
    make_qkv_prefill_width 3 = 3 ∧ (3 : Nat) ≠ 3 - 1 :=
  ⟨rfl, by decide⟩

/-- C5 (amended): the prefill buffers are allocated with sequence-axis
width `max_q_seq_len` (resp. `max_kv_seq_len`); per sequence they hold the
baseline's first `len-1` tokens, and every position from `len-1` on
(including the excluded final baseline token's position) is zero. -/
theorem claim_C5_prefill_view (max_seq_len : Nat) (lens : List Nat)
    (raw : Nat → Nat → Int) (i p p2 : Nat) (_hi : i < lens.length)
    (hp : p < lens.getD i 0 - 1) (hp2 : lens.getD i 0 - 1 ≤ p2) :
    make_qkv_prefill_width max_seq_len = max_seq_len ∧
      make_qkv_prefill lens raw i p = raw i p ∧
      make_qkv_prefill lens raw i p2 = 0 := by
  refine ⟨rfl, ?_, ?_⟩
  · simp only [make_qkv_prefill, make_qkv_baseline]
    rw [if_pos hp, if_pos (by omega)]
  · simp only [make_qkv_prefill]
    rw [if_neg (by omega)]

/-- C5 (witness): the amended prefill-view facts evaluated at
`max_seq_len=5`, `lens=[3]`, position 1 kept and position 2 zeroed. -/
theorem claim_C5_witness :
    make_qkv_prefill_width 5 = 5 ∧
      make_qkv_prefill [3] (fun b q => (7 * b + q : Int)) 0 1 =
        (fun b q => (7 * b + q : Int)) 0 1 ∧
      make_qkv_prefill [3] (fun b q => (7 * b + q : Int)) 0 2 = 0 :=
  claim_C5_prefill_view 5 [3] (fun b q => (7 * b + q : Int)) 0 1 2
    (by decide) (by decide) (by decide)

/-- C6: round-trip losslessness of `pack_tensor` — for every batch index
`i` and token `t < seq_lens[i]`, `packed[start_loc[i] + t]` equals
`unpacked[i, t]`. -/
theorem claim_C6_pack_roundtrip (u : Nat → Nat → Int) (L : List Nat)
    (i t : Nat) (hi : i < L.length) (ht : t < L.getD i 0) :
    (pack_tensor u L).packed ((pack_tensor u L).start_loc_list.getD i 0 + t)
      = u i t :=
  pack_tensor_read u L i t hi ht

/-- C6 (witness): the round trip evaluated at `seq_lens=[2,3]`, batch
index 1, token 2. -/
theorem claim_C6_witness :
    (pack_tensor (fun b q => (10 * b + q : Int)) [2, 3]).packed
        ((pack_tensor (fun b q => (10 * b + q : Int)) [2, 3]).start_loc_list.getD 1 0 + 2)
      = 12 :=
  claim_C6_pack_roundtrip (fun b q => (10 * b + q : Int)) [2, 3] 1 2
    (by decide) (by decide)

/-- C7: `pack_tensor` allocates the packed buffer with first dimension
`sum(seq_lens)`, and `start_loc` is the exclusive prefix sum with a
leading zero: length `batch_size + 1`, first entry `0`, last entry the
total token count, non-decreasing. -/
theorem claim_C7_pack_shapes (u : Nat → Nat → Int) (L : List Nat) :
    (pack_tensor u L).packed_len = L.sum ∧
      (pack_tensor u L).start_loc_list.length = L.length + 1 ∧
      (pack_tensor u L).start_loc_list =
        (List.range (L.length + 1)).map (fun i => (L.take i).sum) ∧
      (pack_tensor u L).start_loc_list.head? = some 0 ∧
      (pack_tensor u L).start_loc_list.getLast? = some L.sum ∧
      List.Chain' (· ≤ ·) (pack_tensor u L).start_loc_list := by
  have hsl : (pack_tensor u L).start_loc_list =
      List.scanl (fun a c => a + c) 0 L := rfl
  refine ⟨rfl, ?_, ?_, ?_, ?_, ?_⟩
  · rw [hsl, List.length_scanl]
  · rw [hsl]
    exact scanl_add_eq_map_take_sum L
  · rw [hsl]
    exact scanl_add_head L 0
  · rw [hsl]
    exact scanl_add_getLast L
  · rw [hsl]
    exact scanl_add_chain L 0

/-- C8: the length-check prelude of `ref_masked_attention` raises on a
supplied list whose length mismatches the batch size — but it also raises
`TypeError` when a length list is **not** supplied (`None`), because the
`assert len(...)` statements run unconditionally, contradicting the
`Optional[...] = None` signature and the `is not None` handling below
them. -/
theorem claim_C8_length_check_behavior :
    ref_masked_attention_len_check 1 none (some [5]) =
        Except.error "TypeError: object of type NoneType has no len" ∧
      ref_masked_attention_len_check 1 (some [5]) none =
        Except.error "TypeError: object of type NoneType has no len" ∧
      ref_masked_attention_len_check 2 (some [4, 6]) (some [7, 8]) =
        Except.ok () ∧
      ref_masked_attention_len_check 2 (some [4]) (some [7, 8]) =
        Except.error "AssertionError" ∧
      ref_masked_attention_len_check 2 (some [4, 6]) (some [7]) =
        Except.error "AssertionError" :=
  ⟨rfl, rfl, rfl, rfl, rfl⟩

/-- C9 (counterexample): on an empty `seq_lens` list,
`make_block_tables_slot_mapping` raises `ValueError` (from
`max(num_blocks_list)` on an empty list) instead of returning empty slot
mappings. -/
theorem claim_C9_counterexample :
    make_block_tables_slot_mapping 4 [] 0 =
      Except.error "ValueError: max arg is an empty sequence" :=
  rfl

/-- C9 (amended): an empty `seq_lens` list makes
`make_block_tables_slot_mapping` raise `ValueError`; zero-token sequences
inside a nonempty batch are accepted without raising and contribute no
slot-mapping entries (the combined slot mapping has exactly `sum(seq_lens)`
entries). -/
theorem claim_C9_degenerate_inputs (bs : Nat) (base : Int) (L : List Nat)
    (r : BTSMResult)
    (hr : make_block_tables_slot_mapping bs L base = Except.ok r) :
    make_block_tables_slot_mapping bs [] base =
        Except.error "ValueError: max arg is an empty sequence" ∧
      r.slot_mapping.length = L.sum := by
  refine ⟨rfl, ?_⟩
  obtain ⟨-, -, -, hslo, -⟩ := make_btsm_spec bs L base r hr
  rw [hslo, slots_from_flatten_length]

/-- C9 (witness): at `block_size=4`, `seq_lens=[0,3]`,
`block_base_addr=0`, the call succeeds, the zero-token sequence contributes
no entries, and the combined slot mapping has `0 + 3 = 3` entries. -/
theorem claim_C9_witness :
    make_block_tables_slot_mapping 4 [] 0 =
        Except.error "ValueError: max arg is an empty sequence" ∧
      btsm_zero_token_result.slot_mapping.length = ([0, 3] : List Nat).sum :=
  claim_C9_degenerate_inputs 4 0 [0, 3] btsm_zero_token_result rfl

/-- C10: with `block_size ≥ 1` and all sequence lengths ≥ 1, the block
tables of distinct sequences are pairwise disjoint, the decode slot
mapping has exactly one entry per sequence, the prefill slot mapping is
the concatenation of per-sequence lists of exactly `n-1` entries for a
sequence of length `n`, and the combined slot mapping has pairwise
distinct entries. -/
theorem claim_C10_no_slot_collisions (bs : Nat) (L : List Nat) (base : Int)
    (r : BTSMResult) (hbs : 1 ≤ bs) (hpos : ∀ n ∈ L, 1 ≤ n)
    (hr : make_block_tables_slot_mapping bs L base = Except.ok r) :
    List.Pairwise List.Disjoint r.block_tables ∧
      r.decode_slot_mapping.length = L.length ∧
      r.prefill_slot_mapping =
        ((seqs_from bs (base + (total_blocks bs L : Int)) L).map
          (fun p => seq_prefill_slots bs p.2 p.1)).flatten ∧
      ((seqs_from bs (base + (total_blocks bs L : Int)) L).map
          (fun p => seq_prefill_slots bs p.2 p.1)).map List.length =
        L.map (fun n => n - 1) ∧
      r.slot_mapping.Nodup := by
  obtain ⟨ht, hpre, hdec, hslo, hmax⟩ := make_btsm_spec bs L base r hr
  refine ⟨?_, ?_, hpre, prefill_from_map_length bs _ L, ?_⟩
  · rw [ht]
    exact tables_from_pairwise bs _ L
  · rw [hdec]
    exact decode_from_length bs _ L hpos
  · rw [hslo]
    exact slots_from_nodup bs _ L hbs

/-- C10 (witness): the disjointness and counting facts evaluated at
`block_size=4`, `seq_lens=[3,5]`, `block_base_addr=0`. -/
theorem claim_C10_witness :
    List.Pairwise List.Disjoint btsm_example_result.block_tables ∧
      btsm_example_result.decode_slot_mapping.length =
        ([3, 5] : List Nat).length ∧
      btsm_example_result.prefill_slot_mapping =
        ((seqs_from 4 (0 + (total_blocks 4 [3, 5] : Int)) [3, 5]).map
          (fun p => seq_prefill_slots 4 p.2 p.1)).flatten ∧
      ((seqs_from 4 (0 + (total_blocks 4 [3, 5] : Int)) [3, 5]).map
          (fun p => seq_prefill_slots 4 p.2 p.1)).map List.length =
        ([3, 5] : List Nat).map (fun n => n - 1) ∧
      btsm_example_result.slot_mapping.Nodup :=
  claim_C10_no_slot_collisions 4 [3, 5] 0 btsm_example_result
    (by decide) (by decide) rfl

end VllmTestUtils
